import Mathlib

/-!
Verification of the MapFlow merge-conflict resolution engine.

Lines are modelled as lists of characters; `strL` converts a string literal.
The source script `resolve_conflict.py` is embedded as `resolve_conflict`.
-/

namespace MapFlow

/-- A text line, already split from the raw input. -/
abbrev Line := List Char

/-- Convert a string literal to a `Line`. -/
def strL (s : String) : Line := s.data

/-- Characters stripped by Python's `str.strip()` with no argument. -/
def isSpaceCh (c : Char) : Bool :=
  c = ' ' || c = '\t' || c = '\n' || c = '\r' || c = '\x0b' || c = '\x0c'

/-- Python `str.strip()`: remove leading and trailing whitespace. -/
def strip (l : Line) : Line :=
  ((l.dropWhile isSpaceCh).reverse.dropWhile isSpaceCh).reverse

/-- Python `s.startswith(p)` on lines. -/
def startsWith (l p : Line) : Bool := p.isPrefixOf l

/-- Python `line.strip().startswith(p)`, the guard used by every marker test. -/
def stripStarts (l p : Line) : Bool := startsWith (strip l) p

def ltSigil : Line := strL "<<<<<<<"
def baseSigil : Line := strL "|||||||"
def eqSigil : Line := strL "======="
def gtSigil : Line := strL ">>>>>>>"
def headSigil : Line := strL "<<<<<<< HEAD"

/-! ## The source script (`src/resolve_conflict.py`)

The script scans the lines with a three-valued mode variable
(`"normal"`, `"head"`, `"skip"`) and writes a line out exactly when,
after the marker tests all fail, the mode is `normal` or `head`.
Marker lines themselves are always consumed (`continue`). -/

/-- The mode variable of the source script. -/
inductive Mode
  | normal
  | head
  | skip
  deriving DecidableEq

/-- One iteration of the source loop: the next mode, and the line written
to the output file, if any. -/
def sourceStep (m : Mode) (l : Line) : Mode × Option Line :=
  if stripStarts l headSigil then (.head, none)
  else if stripStarts l eqSigil then (.skip, none)
  else if stripStarts l gtSigil then (.normal, none)
  else match m with
    | .skip => (.skip, none)
    | _ => (m, some l)

/-- The source loop over the remaining lines, from a given mode. -/
def sourceGo : Mode → List Line → List Line
  | _, [] => []
  | m, l :: ls =>
    match sourceStep m l with
    | (m2, some o) => o :: sourceGo m2 ls
    | (m2, none) => sourceGo m2 ls

/-- The mode the source loop is in after consuming the given lines. -/
def sourceModeAfter : Mode → List Line → Mode
  | m, [] => m
  | m, l :: ls => sourceModeAfter (sourceStep m l).1 ls

/-- `resolve_conflict` from `src/resolve_conflict.py`, restricted to its
pure core: the list of lines written to the output file, starting in
mode `normal`. -/
def resolve_conflict (lines : List Line) : List Line :=
  sourceGo .normal lines

/-- A line the source script recognizes as a marker (and consumes). -/
def isSourceMarker (l : Line) : Bool :=
  stripStarts l headSigil || stripStarts l eqSigil || stripStarts l gtSigil

/-! ## The ConflictResolver of the specification

Modelled from the spec: the generalized ConflictResolver of sections 2 to 4
(marker classifier with arbitrary labels, resolution strategies, structured
diagnostics, unterminated-block policy) is not implemented in the repository;
`src/resolve_conflict.py` is only its KeepLocal special case. The definitions
below follow the spec's transition table. Combinations the table leaves
unspecified (an EndMarker before the separator, a duplicate BaseMarker or
SeparatorMarker inside a block) emit `MalformedMarker` and buffer the line as
Plain into the current segment, per the error taxonomy of section 7 and the
no-silent-deletion guarantee. -/

/-- The resolution strategy (spec section 3). -/
inductive Strategy
  | keepLocal
  | keepIncoming
  | keepBase
  | keepBoth
  deriving DecidableEq

/-- A diagnostic (spec section 3). -/
inductive Diag
  | resolvedBlock (start fin : Nat)
  | malformedMarker (idx : Nat) (reason : String)
  | unterminatedBlock (start : Nat)
  deriving DecidableEq

/-- The classification of a single line (spec section 4.1). -/
inductive MKind
  | start
  | base
  | sep
  | fin
  | plain
  deriving DecidableEq

/-- Modelled from the spec: the marker classifier of section 4.1. A line is
a marker exactly when its stripped form begins with the marker sigil; any
trailing label is irrelevant to classification. -/
def classify (l : Line) : MKind :=
  if stripStarts l ltSigil then .start
  else if stripStarts l baseSigil then .base
  else if stripStarts l eqSigil then .sep
  else if stripStarts l gtSigil then .fin
  else .plain

/-- A line whose stripped form begins with one of the four marker sigils. -/
def isMarkerLine (l : Line) : Bool :=
  stripStarts l ltSigil || stripStarts l baseSigil ||
    stripStarts l eqSigil || stripStarts l gtSigil

/-- The states of the resolution state machine (spec section 4.2). -/
inductive RState
  | normal
  | inLocal
  | inBase
  | inIncoming
  deriving DecidableEq

/-- The scan state of the resolver: the machine state, the index of the next
line, the index of the current block's start marker, the three collected
segments, whether a base marker was seen, the raw lines collected since the
start marker (for the verbatim fallback on malformed input), the output
buffer and the diagnostics. -/
structure Cfg where
  state : RState
  idx : Nat
  startIdx : Nat
  localSeg : List Line
  baseSeg : List Line
  incomingSeg : List Line
  hasBase : Bool
  pending : List Line
  out : List Line
  diags : List Diag
  deriving DecidableEq

/-- Transition on a Plain line. -/
def stepPlain (c : Cfg) (l : Line) : Cfg :=
  match c.state with
  | .normal => { c with out := c.out ++ [l], idx := c.idx + 1 }
  | .inLocal =>
    { c with localSeg := c.localSeg ++ [l], pending := c.pending ++ [l],
             idx := c.idx + 1 }
  | .inBase =>
    { c with baseSeg := c.baseSeg ++ [l], pending := c.pending ++ [l],
             idx := c.idx + 1 }
  | .inIncoming =>
    { c with incomingSeg := c.incomingSeg ++ [l], pending := c.pending ++ [l],
             idx := c.idx + 1 }

/-- Transition on a StartMarker: open a block; a nested StartMarker abandons
the current block, flushes its collected lines as Plain, emits
`MalformedMarker` and restarts from this marker (spec section 4.2). -/
def stepStart (c : Cfg) (l : Line) : Cfg :=
  match c.state with
  | .normal =>
    { c with state := .inLocal, startIdx := c.idx, localSeg := [],
             baseSeg := [], incomingSeg := [], hasBase := false,
             pending := [l], idx := c.idx + 1 }
  | _ =>
    { c with state := .inLocal, startIdx := c.idx, localSeg := [],
             baseSeg := [], incomingSeg := [], hasBase := false,
             out := c.out ++ c.pending, pending := [l],
             diags := c.diags ++ [.malformedMarker c.idx "nested start marker"],
             idx := c.idx + 1 }

/-- Transition on a BaseMarker. Outside a block it is out of context:
`MalformedMarker`, pass the line through as Plain. -/
def stepBase (c : Cfg) (l : Line) : Cfg :=
  match c.state with
  | .normal =>
    { c with out := c.out ++ [l],
             diags := c.diags ++
               [.malformedMarker c.idx "base marker outside conflict block"],
             idx := c.idx + 1 }
  | .inLocal =>
    { c with state := .inBase, hasBase := true, pending := c.pending ++ [l],
             idx := c.idx + 1 }
  | .inBase =>
    { c with baseSeg := c.baseSeg ++ [l], pending := c.pending ++ [l],
             diags := c.diags ++ [.malformedMarker c.idx "duplicate base marker"],
             idx := c.idx + 1 }
  | .inIncoming =>
    { c with incomingSeg := c.incomingSeg ++ [l], pending := c.pending ++ [l],
             diags := c.diags ++
               [.malformedMarker c.idx "base marker after separator"],
             idx := c.idx + 1 }

/-- Transition on a SeparatorMarker. Outside a block it is never treated as
a marker: `MalformedMarker`, pass the line through as Plain. -/
def stepSep (c : Cfg) (l : Line) : Cfg :=
  match c.state with
  | .normal =>
    { c with out := c.out ++ [l],
             diags := c.diags ++
               [.malformedMarker c.idx "separator outside conflict block"],
             idx := c.idx + 1 }
  | .inLocal =>
    { c with state := .inIncoming, pending := c.pending ++ [l],
             idx := c.idx + 1 }
  | .inBase =>
    { c with state := .inIncoming, pending := c.pending ++ [l],
             idx := c.idx + 1 }
  | .inIncoming =>
    { c with incomingSeg := c.incomingSeg ++ [l], pending := c.pending ++ [l],
             diags := c.diags ++ [.malformedMarker c.idx "duplicate separator"],
             idx := c.idx + 1 }

/-- The lines a completed block contributes to the output, by strategy, and
any extra diagnostic (spec section 4.2, flush-on-EndMarker). `KeepBase` with
no base segment falls back to verbatim pass-through of the collected lines
plus the end marker, with a `MalformedMarker` diagnostic. -/
def flushSeg (s : Strategy) (c : Cfg) (l : Line) : List Line × List Diag :=
  match s with
  | .keepLocal => (c.localSeg, [])
  | .keepIncoming => (c.incomingSeg, [])
  | .keepBoth => (c.localSeg ++ c.incomingSeg, [])
  | .keepBase =>
    if c.hasBase then (c.baseSeg, [])
    else (c.pending ++ [l],
          [.malformedMarker c.idx "KeepBase without base segment"])

/-- Transition on an EndMarker: in `InIncoming` the block is complete and
is flushed per strategy with a `ResolvedBlock` diagnostic. -/
def stepEnd (s : Strategy) (c : Cfg) (l : Line) : Cfg :=
  match c.state with
  | .normal =>
    { c with out := c.out ++ [l],
             diags := c.diags ++
               [.malformedMarker c.idx "end marker outside conflict block"],
             idx := c.idx + 1 }
  | .inLocal =>
    { c with localSeg := c.localSeg ++ [l], pending := c.pending ++ [l],
             diags := c.diags ++
               [.malformedMarker c.idx "end marker before separator"],
             idx := c.idx + 1 }
  | .inBase =>
    { c with baseSeg := c.baseSeg ++ [l], pending := c.pending ++ [l],
             diags := c.diags ++
               [.malformedMarker c.idx "end marker before separator"],
             idx := c.idx + 1 }
  | .inIncoming =>
    { c with state := .normal, out := c.out ++ (flushSeg s c l).1,
             diags := c.diags ++ (flushSeg s c l).2 ++
               [.resolvedBlock c.startIdx c.idx],
             localSeg := [], baseSeg := [], incomingSeg := [],
             hasBase := false, pending := [], idx := c.idx + 1 }

/-- One transition of the resolver, dispatching on the classification. -/
def step (s : Strategy) (c : Cfg) (l : Line) : Cfg :=
  match classify l with
  | .plain => stepPlain c l
  | .start => stepStart c l
  | .base => stepBase c l
  | .sep => stepSep c l
  | .fin => stepEnd s c l

/-- The linear scan of the resolver over the lines. -/
def scan (s : Strategy) : Cfg → List Line → Cfg
  | c, [] => c
  | c, l :: ls => scan s (step s c l) ls

/-- End-of-input policy: in any state other than `Normal`, emit
`UnterminatedBlock` and pass the collected lines through verbatim. -/
def finish (c : Cfg) : List Line × List Diag :=
  if c.state = .normal then (c.out, c.diags)
  else (c.out ++ c.pending, c.diags ++ [.unterminatedBlock c.startIdx])

/-- The initial scan state. -/
def initCfg : Cfg :=
  { state := .normal, idx := 0, startIdx := 0, localSeg := [], baseSeg := [],
    incomingSeg := [], hasBase := false, pending := [], out := [], diags := [] }

/-- Modelled from the spec: the core contract of section 6,
`resolve(lines, strategy) -> (resolvedLines, diagnostics)`. -/
def resolve (lines : List Line) (s : Strategy) : List Line × List Diag :=
  finish (scan s initCfg lines)

/-- Scan invariant backing the never-reorder/never-invent guarantee: the
output plus the collected block lines form a sublist of the consumed input,
the segments are an in-order sublist of the collected lines, and the block
buffers are empty in the Normal state. -/
def SubInv (c : Cfg) (pre : List Line) : Prop :=
  List.Sublist (c.out ++ c.pending) pre ∧
    List.Sublist (c.localSeg ++ c.baseSeg ++ c.incomingSeg) c.pending ∧
    (c.state = .normal → c.localSeg = [] ∧ c.baseSeg = [] ∧
      c.incomingSeg = [] ∧ c.pending = []) ∧
    (c.state = .inLocal → c.baseSeg = [] ∧ c.incomingSeg = []) ∧
    (c.state = .inBase → c.incomingSeg = [])

/-- The machine state transition as a function of the current state and the
line classification alone (the "Next" column of the spec's table); `step`
changes the state in no other way. -/
def nextState (st : RState) (k : MKind) : RState :=
  match k, st with
  | .plain, _ => st
  | .start, _ => .inLocal
  | .base, .inLocal => .inBase
  | .base, _ => st
  | .sep, .inLocal => .inIncoming
  | .sep, .inBase => .inIncoming
  | .sep, _ => st
  | .fin, .inIncoming => .normal
  | .fin, _ => st

/-- The input lines that lie outside every conflict block: the lines the
machine consumes in the Normal state, except StartMarkers (which open a
block). An out-of-context marker in Normal is treated as Plain, so it also
lies outside every block. -/
def outsideLines (st : RState) : List Line → List Line
  | [] => []
  | l :: ls =>
    if st = .normal ∧ ¬ classify l = .start
    then l :: outsideLines (nextState st (classify l)) ls
    else outsideLines (nextState st (classify l)) ls

/-- The segment(s) of the currently open block that the strategy selects
for the output. -/
def selectedSeg (s : Strategy) (c : Cfg) : List Line :=
  match s with
  | .keepLocal => c.localSeg
  | .keepIncoming => c.incomingSeg
  | .keepBase => c.baseSeg
  | .keepBoth => c.localSeg ++ c.incomingSeg

/-- Modelled from the spec: the driver of section 4.3 as a big-step relation
on the scan state, one constructor per classification outcome plus the two
end-of-input policies. Determinism of this relation expresses that the
transition table is total and non-overlapping. -/
inductive ResolveR (s : Strategy) : Cfg → List Line → List Line × List Diag → Prop
  | done_normal (c : Cfg) :
      c.state = .normal → ResolveR s c [] (c.out, c.diags)
  | done_open (c : Cfg) :
      ¬ c.state = .normal →
      ResolveR s c [] (c.out ++ c.pending,
        c.diags ++ [.unterminatedBlock c.startIdx])
  | plain_line (c : Cfg) (l : Line) (ls : List Line) (o : List Line × List Diag) :
      classify l = .plain → ResolveR s (stepPlain c l) ls o →
      ResolveR s c (l :: ls) o
  | start_line (c : Cfg) (l : Line) (ls : List Line) (o : List Line × List Diag) :
      classify l = .start → ResolveR s (stepStart c l) ls o →
      ResolveR s c (l :: ls) o
  | base_line (c : Cfg) (l : Line) (ls : List Line) (o : List Line × List Diag) :
      classify l = .base → ResolveR s (stepBase c l) ls o →
      ResolveR s c (l :: ls) o
  | sep_line (c : Cfg) (l : Line) (ls : List Line) (o : List Line × List Diag) :
      classify l = .sep → ResolveR s (stepSep c l) ls o →
      ResolveR s c (l :: ls) o
  | end_line (c : Cfg) (l : Line) (ls : List Line) (o : List Line × List Diag) :
      classify l = .fin → ResolveR s (stepEnd s c l) ls o →
      ResolveR s c (l :: ls) o

/-! ## Sanity checks -/

example : stripStarts (strL "  <<<<<<< HEAD") headSigil = true := by decide
example : stripStarts (strL "=======") eqSigil = true := by decide
example : stripStarts (strL "a") eqSigil = false := by decide

example :
    resolve_conflict
      [strL "a", strL "<<<<<<< HEAD", strL "local1", strL "=======",
       strL "incoming1", strL ">>>>>>> branch", strL "b"] =
      [strL "a", strL "local1", strL "b"] := by decide

example :
    resolve
      [strL "a", strL "<<<<<<< HEAD", strL "local1", strL "=======",
       strL "incoming1", strL ">>>>>>> branch", strL "b"] .keepBoth =
      ([strL "a", strL "local1", strL "incoming1", strL "b"],
       [.resolvedBlock 1 5]) := by decide

example :
    resolve [strL "<<<<<<< HEAD", strL "x"] .keepLocal =
      ([strL "<<<<<<< HEAD", strL "x"], [.unterminatedBlock 0]) := by decide

example :
    resolve [strL "======="] .keepLocal =
      ([strL "======="],
       [.malformedMarker 0 "separator outside conflict block"]) := by decide

/-! ## Helper lemmas -/

lemma sourceGo_cons (m : Mode) (x : Line) (ls : List Line) :
    sourceGo m (x :: ls) =
      match sourceStep m x with
      | (m2, some o) => o :: sourceGo m2 ls
      | (m2, none) => sourceGo m2 ls := rfl

lemma isPrefixOf_false_of_head_ne {a b : Char} {p q s : List Char}
    (h : List.isPrefixOf (a :: p) s = true) (hne : b ≠ a) :
    List.isPrefixOf (b :: q) s = false := by
  cases s with
  | nil => simp [List.isPrefixOf] at h
  | cons c cs =>
    simp only [List.isPrefixOf, Bool.and_eq_true, beq_iff_eq] at h
    refine Bool.eq_false_iff.mpr fun hcontra => ?_
    simp only [List.isPrefixOf, Bool.and_eq_true, beq_iff_eq] at hcontra
    exact hne (hcontra.1.trans h.1.symm)

lemma eqSigil_cons : eqSigil = '=' :: strL "======" := rfl
lemma ltSigil_cons : ltSigil = '<' :: strL "<<<<<<" := rfl
lemma gtSigil_cons : gtSigil = '>' :: strL ">>>>>>" := rfl
lemma baseSigil_cons : baseSigil = '|' :: strL "||||||" := rfl
lemma headSigil_cons : headSigil = '<' :: strL "<<<<<< HEAD" := rfl

/-- A stripped form beginning with the separator sigil excludes the other
three sigils (and the source's narrow start literal). -/
lemma stripStarts_eq_excl (l : Line) (h : stripStarts l eqSigil = true) :
    stripStarts l headSigil = false ∧ stripStarts l gtSigil = false ∧
      stripStarts l ltSigil = false ∧ stripStarts l baseSigil = false := by
  unfold stripStarts startsWith at h ⊢
  rw [eqSigil_cons] at h
  rw [headSigil_cons, gtSigil_cons, ltSigil_cons, baseSigil_cons]
  exact ⟨isPrefixOf_false_of_head_ne h (by decide),
    isPrefixOf_false_of_head_ne h (by decide),
    isPrefixOf_false_of_head_ne h (by decide),
    isPrefixOf_false_of_head_ne h (by decide)⟩

/-- A line the classifier sends to `plain` matches none of the sigils. -/
lemma classify_of_not_marker (l : Line) (h : isMarkerLine l = false) :
    classify l = .plain := by
  unfold isMarkerLine at h
  unfold classify
  cases h1 : stripStarts l ltSigil <;> cases h2 : stripStarts l baseSigil <;>
    cases h3 : stripStarts l eqSigil <;> cases h4 : stripStarts l gtSigil <;>
    simp_all

/-- A run over marker-free lines from the Normal state stays Normal,
appends the lines to the output and emits no diagnostic. -/
lemma scan_plain (s : Strategy) (ls : List Line) :
    ∀ (c : Cfg), c.state = .normal → (∀ l ∈ ls, classify l = .plain) →
      (scan s c ls).out = c.out ++ ls ∧ (scan s c ls).diags = c.diags ∧
        (scan s c ls).state = .normal := by
  induction ls with
  | nil => intro c hst _; simp [scan, hst]
  | cons l ls ih =>
    intro c hst hp
    have hc : classify l = .plain := hp l (by simp)
    have hstep : step s c l = { c with out := c.out ++ [l], idx := c.idx + 1 } := by
      rw [step, hc, stepPlain, hst]
    have hrec := ih (step s c l) (by rw [hstep]; exact hst)
      fun x hx => hp x (by simp [hx])
    have hgoal : scan s c (l :: ls) = scan s (step s c l) ls := rfl
    rw [hgoal]
    refine ⟨?_, ?_, hrec.2.2⟩
    · rw [hrec.1, hstep]
      simp
    · rw [hrec.2.1, hstep]

/-- Shared pass-through lemma: on marker-free input, `resolve` is the
identity with empty diagnostics, for every strategy. -/
lemma resolve_pass_through (lines : List Line) (s : Strategy)
    (h : ∀ l ∈ lines, isMarkerLine l = false) :
    resolve lines s = (lines, []) := by
  have hp : ∀ l ∈ lines, classify l = .plain :=
    fun l hl => classify_of_not_marker l (h l hl)
  have h3 := scan_plain s lines initCfg rfl hp
  unfold resolve finish
  rw [if_pos h3.2.2, h3.1, h3.2.1]
  simp [initCfg]

/-- In output position, the source loop only ever emits non-marker lines. -/
lemma sourceStep_some (m : Mode) (x y : Line) (m2 : Mode)
    (h : sourceStep m x = (m2, some y)) :
    y = x ∧ isSourceMarker x = false := by
  unfold sourceStep at h
  by_cases h1 : stripStarts x headSigil = true
  · simp [h1] at h
  · by_cases h2 : stripStarts x eqSigil = true
    · simp [h1, h2] at h
    · by_cases h3 : stripStarts x gtSigil = true
      · simp [h1, h2, h3] at h
      · cases m <;> simp_all [isSourceMarker]

lemma sourceGo_no_marker (ls : List Line) :
    ∀ (m : Mode) (l : Line), l ∈ sourceGo m ls → isSourceMarker l = false := by
  induction ls with
  | nil => intro m l hl; simp [sourceGo] at hl
  | cons x ls ih =>
    intro m l hl
    rw [sourceGo_cons] at hl
    rcases hstep : sourceStep m x with ⟨m2, o⟩
    rw [hstep] at hl
    cases o with
    | none => exact ih m2 l hl
    | some y =>
      rcases List.mem_cons.mp hl with rfl | hl
      · rcases sourceStep_some m x l m2 hstep with ⟨rfl, hm⟩
        exact hm
      · exact ih m2 l hl

lemma sourceGo_append (m : Mode) (xs ys : List Line) :
    sourceGo m (xs ++ ys) =
      sourceGo m xs ++ sourceGo (sourceModeAfter m xs) ys := by
  induction xs generalizing m with
  | nil => simp [sourceGo, sourceModeAfter]
  | cons x xs ih =>
    rw [List.cons_append, sourceGo_cons, sourceGo_cons, sourceModeAfter]
    rcases hstep : sourceStep m x with ⟨m2, o⟩
    cases o <;> simp [hstep, ih]

/-- Once the source loop is in skip mode, input with no start-literal and no
end-marker lines produces no output at all. -/
lemma sourceGo_skip_nil (ls : List Line)
    (h : ∀ l ∈ ls, stripStarts l headSigil = false ∧
      stripStarts l gtSigil = false) :
    sourceGo .skip ls = [] := by
  induction ls with
  | nil => rfl
  | cons x ls ih =>
    have hx := h x (by simp)
    have hstep : sourceStep .skip x = (.skip, none) := by
      by_cases h2 : stripStarts x eqSigil = true
      · simp [sourceStep, hx.1, h2]
      · simp [sourceStep, hx.1, h2, hx.2]
    rw [sourceGo_cons, hstep]
    exact ih fun l hl => h l (by simp [hl])

/-- A separator line sends the source loop to skip mode from any mode. -/
lemma sourceStep_sep (m : Mode) (l : Line) (h : stripStarts l eqSigil = true) :
    sourceStep m l = (.skip, none) := by
  have hx := stripStarts_eq_excl l h
  simp [sourceStep, hx.1, h]

/-- Every transition consumes exactly one line. -/
lemma step_idx (s : Strategy) (c : Cfg) (l : Line) :
    (step s c l).idx = c.idx + 1 := by
  cases hcl : classify l <;> cases hst : c.state <;>
    simp [step, stepPlain, stepStart, stepBase, stepSep, stepEnd, hcl, hst]

/-- If a transition ends inside a block, then either the block opened at
this very line, or the machine was already inside a block and the line was
appended to the collected lines. -/
lemma step_block (s : Strategy) (c : Cfg) (l : Line)
    (h : ¬ (step s c l).state = .normal) :
    ((step s c l).startIdx = c.idx ∧ (step s c l).pending = [l]) ∨
      (¬ c.state = .normal ∧ (step s c l).startIdx = c.startIdx ∧
        (step s c l).pending = c.pending ++ [l]) := by
  cases hcl : classify l <;> cases hst : c.state <;>
    simp_all [step, stepPlain, stepStart, stepBase, stepSep, stepEnd, hcl, hst]

/-- Scan invariant: the index counts the consumed lines, and inside a block
`pending` is exactly the consumed lines from the start marker onward. -/
lemma scan_pending (s : Strategy) (ls : List Line) :
    ∀ (c : Cfg) (pre : List Line), c.idx = pre.length →
      (¬ c.state = .normal → c.startIdx ≤ pre.length ∧
        c.pending = pre.drop c.startIdx) →
      ((scan s c ls).idx = (pre ++ ls).length ∧
        (¬ (scan s c ls).state = .normal →
          (scan s c ls).startIdx ≤ (pre ++ ls).length ∧
          (scan s c ls).pending = (pre ++ ls).drop (scan s c ls).startIdx)) := by
  induction ls with
  | nil =>
    intro c pre h1 h2
    exact ⟨by simpa [scan] using h1, by simpa [scan] using h2⟩
  | cons l ls ih =>
    intro c pre h1 h2
    have hidx : (step s c l).idx = (pre ++ [l]).length := by
      simp [step_idx, h1]
    have hblk : ¬ (step s c l).state = .normal →
        (step s c l).startIdx ≤ (pre ++ [l]).length ∧
        (step s c l).pending = (pre ++ [l]).drop (step s c l).startIdx := by
      intro hns
      rcases step_block s c l hns with ⟨hsi, hp⟩ | ⟨hcs, hsi, hp⟩
      · refine ⟨by simp [hsi, h1], ?_⟩
        rw [hp, hsi, h1, List.drop_append_eq_append_drop]
        simp
      · rcases h2 hcs with ⟨hle, hpd⟩
        refine ⟨by simp [hsi]; exact Nat.le_succ_of_le hle, ?_⟩
        rw [hp, hsi, hpd, List.drop_append_eq_append_drop,
          Nat.sub_eq_zero_of_le hle]
        simp
    have hrec := ih (step s c l) (pre ++ [l]) hidx hblk
    have hgoal : scan s c (l :: ls) = scan s (step s c l) ls := rfl
    rw [hgoal]
    simpa [List.append_assoc] using hrec

lemma sublist_snoc_both {x y : List Line} (l : Line) (h : List.Sublist x y) :
    List.Sublist (x ++ [l]) (y ++ [l]) :=
  List.Sublist.append h (List.Sublist.refl [l])

lemma sublist_out_flush {o p pre x : List Line} (l : Line)
    (h1 : List.Sublist (o ++ p) pre) (hx : List.Sublist x p) :
    List.Sublist (o ++ x) (pre ++ [l]) :=
  ((List.Sublist.append (List.Sublist.refl o) hx).trans h1).trans
    (List.sublist_append_left pre [l])

lemma sublist_pend {o p pre : List Line} (l : Line)
    (h1 : List.Sublist (o ++ p) pre) :
    List.Sublist (o ++ (p ++ [l])) (pre ++ [l]) := by
  rw [← List.append_assoc]
  exact sublist_snoc_both l h1

/-- Every transition preserves the sublist invariant. -/
lemma step_subInv (s : Strategy) (c : Cfg) (l : Line) (pre : List Line)
    (h : SubInv c pre) : SubInv (step s c l) (pre ++ [l]) := by
  obtain ⟨h1, h2, h3, h4, h5⟩ := h
  simp only [SubInv]
  cases hcl : classify l with
  | plain =>
    have hs : step s c l = stepPlain c l := by rw [step, hcl]
    rw [hs]
    cases hst : c.state with
    | normal =>
      obtain ⟨hL, hB, hI, hP⟩ := h3 hst
      rw [stepPlain, hst]
      refine ⟨?_, h2, fun hx => ⟨hL, hB, hI, hP⟩,
        fun hx => by simp at hx,
        fun hx => by simp at hx⟩
      show List.Sublist ((c.out ++ [l]) ++ c.pending) (pre ++ [l])
      rw [hP, List.append_nil]
      rw [hP, List.append_nil] at h1
      exact sublist_snoc_both l h1
    | inLocal =>
      obtain ⟨hB, hI⟩ := h4 hst
      rw [stepPlain, hst]
      refine ⟨?_, ?_, fun hx => by simp at hx,
        fun hx => ⟨hB, hI⟩,
        fun hx => by simp at hx⟩
      · show List.Sublist (c.out ++ (c.pending ++ [l])) (pre ++ [l])
        exact sublist_pend l h1
      · show List.Sublist ((c.localSeg ++ [l]) ++ c.baseSeg ++ c.incomingSeg)
          (c.pending ++ [l])
        simp only [hB, hI, List.append_nil]
        simp only [hB, hI, List.append_nil] at h2
        exact sublist_snoc_both l h2
    | inBase =>
      have hI := h5 hst
      rw [stepPlain, hst]
      refine ⟨?_, ?_, fun hx => by simp at hx,
        fun hx => by simp at hx, fun hx => hI⟩
      · show List.Sublist (c.out ++ (c.pending ++ [l])) (pre ++ [l])
        exact sublist_pend l h1
      · show List.Sublist ((c.localSeg ++ (c.baseSeg ++ [l])) ++ c.incomingSeg)
          (c.pending ++ [l])
        simp only [hI, List.append_nil]
        simp only [hI, List.append_nil] at h2
        rw [← List.append_assoc]
        exact sublist_snoc_both l h2
    | inIncoming =>
      rw [stepPlain, hst]
      refine ⟨?_, ?_, fun hx => by simp at hx,
        fun hx => by simp at hx,
        fun hx => by simp at hx⟩
      · show List.Sublist (c.out ++ (c.pending ++ [l])) (pre ++ [l])
        exact sublist_pend l h1
      · show List.Sublist ((c.localSeg ++ c.baseSeg) ++ (c.incomingSeg ++ [l]))
          (c.pending ++ [l])
        rw [← List.append_assoc]
        exact sublist_snoc_both l h2
  | start =>
    have hs : step s c l = stepStart c l := by rw [step, hcl]
    rw [hs]
    cases hst : c.state with
    | normal =>
      obtain ⟨hL, hB, hI, hP⟩ := h3 hst
      rw [stepStart, hst]
      refine ⟨?_, by simp, fun hx => by simp at hx,
        fun hx => ⟨rfl, rfl⟩, fun hx => by simp at hx⟩
      show List.Sublist (c.out ++ [l]) (pre ++ [l])
      rw [hP, List.append_nil] at h1
      exact sublist_snoc_both l h1
    | inLocal =>
      rw [stepStart, hst]
      refine ⟨?_, by simp, fun hx => by simp at hx,
        fun hx => ⟨rfl, rfl⟩, fun hx => by simp at hx⟩
      show List.Sublist ((c.out ++ c.pending) ++ [l]) (pre ++ [l])
      exact sublist_snoc_both l h1
    | inBase =>
      rw [stepStart, hst]
      refine ⟨?_, by simp, fun hx => by simp at hx,
        fun hx => ⟨rfl, rfl⟩, fun hx => by simp at hx⟩
      show List.Sublist ((c.out ++ c.pending) ++ [l]) (pre ++ [l])
      exact sublist_snoc_both l h1
    | inIncoming =>
      rw [stepStart, hst]
      refine ⟨?_, by simp, fun hx => by simp at hx,
        fun hx => ⟨rfl, rfl⟩, fun hx => by simp at hx⟩
      show List.Sublist ((c.out ++ c.pending) ++ [l]) (pre ++ [l])
      exact sublist_snoc_both l h1
  | base =>
    have hs : step s c l = stepBase c l := by rw [step, hcl]
    rw [hs]
    cases hst : c.state with
    | normal =>
      obtain ⟨hL, hB, hI, hP⟩ := h3 hst
      rw [stepBase, hst]
      refine ⟨?_, h2, fun hx => ⟨hL, hB, hI, hP⟩,
        fun hx => by simp at hx,
        fun hx => by simp at hx⟩
      show List.Sublist ((c.out ++ [l]) ++ c.pending) (pre ++ [l])
      rw [hP, List.append_nil]
      rw [hP, List.append_nil] at h1
      exact sublist_snoc_both l h1
    | inLocal =>
      obtain ⟨hB, hI⟩ := h4 hst
      rw [stepBase, hst]
      refine ⟨?_, ?_, fun hx => by simp at hx,
        fun hx => by simp at hx, fun hx => hI⟩
      · show List.Sublist (c.out ++ (c.pending ++ [l])) (pre ++ [l])
        exact sublist_pend l h1
      · show List.Sublist (c.localSeg ++ c.baseSeg ++ c.incomingSeg)
          (c.pending ++ [l])
        exact h2.trans (List.sublist_append_left _ _)
    | inBase =>
      have hI := h5 hst
      rw [stepBase, hst]
      refine ⟨?_, ?_, fun hx => by simp at hx,
        fun hx => by simp at hx, fun hx => hI⟩
      · show List.Sublist (c.out ++ (c.pending ++ [l])) (pre ++ [l])
        exact sublist_pend l h1
      · show List.Sublist ((c.localSeg ++ (c.baseSeg ++ [l])) ++ c.incomingSeg)
          (c.pending ++ [l])
        simp only [hI, List.append_nil]
        simp only [hI, List.append_nil] at h2
        rw [← List.append_assoc]
        exact sublist_snoc_both l h2
    | inIncoming =>
      rw [stepBase, hst]
      refine ⟨?_, ?_, fun hx => by simp at hx,
        fun hx => by simp at hx,
        fun hx => by simp at hx⟩
      · show List.Sublist (c.out ++ (c.pending ++ [l])) (pre ++ [l])
        exact sublist_pend l h1
      · show List.Sublist ((c.localSeg ++ c.baseSeg) ++ (c.incomingSeg ++ [l]))
          (c.pending ++ [l])
        rw [← List.append_assoc]
        exact sublist_snoc_both l h2
  | sep =>
    have hs : step s c l = stepSep c l := by rw [step, hcl]
    rw [hs]
    cases hst : c.state with
    | normal =>
      obtain ⟨hL, hB, hI, hP⟩ := h3 hst
      rw [stepSep, hst]
      refine ⟨?_, h2, fun hx => ⟨hL, hB, hI, hP⟩,
        fun hx => by simp at hx,
        fun hx => by simp at hx⟩
      show List.Sublist ((c.out ++ [l]) ++ c.pending) (pre ++ [l])
      rw [hP, List.append_nil]
      rw [hP, List.append_nil] at h1
      exact sublist_snoc_both l h1
    | inLocal =>
      rw [stepSep, hst]
      refine ⟨?_, ?_, fun hx => by simp at hx,
        fun hx => by simp at hx,
        fun hx => by simp at hx⟩
      · show List.Sublist (c.out ++ (c.pending ++ [l])) (pre ++ [l])
        exact sublist_pend l h1
      · show List.Sublist (c.localSeg ++ c.baseSeg ++ c.incomingSeg)
          (c.pending ++ [l])
        exact h2.trans (List.sublist_append_left _ _)
    | inBase =>
      rw [stepSep, hst]
      refine ⟨?_, ?_, fun hx => by simp at hx,
        fun hx => by simp at hx,
        fun hx => by simp at hx⟩
      · show List.Sublist (c.out ++ (c.pending ++ [l])) (pre ++ [l])
        exact sublist_pend l h1
      · show List.Sublist (c.localSeg ++ c.baseSeg ++ c.incomingSeg)
          (c.pending ++ [l])
        exact h2.trans (List.sublist_append_left _ _)
    | inIncoming =>
      rw [stepSep, hst]
      refine ⟨?_, ?_, fun hx => by simp at hx,
        fun hx => by simp at hx,
        fun hx => by simp at hx⟩
      · show List.Sublist (c.out ++ (c.pending ++ [l])) (pre ++ [l])
        exact sublist_pend l h1
      · show List.Sublist ((c.localSeg ++ c.baseSeg) ++ (c.incomingSeg ++ [l]))
          (c.pending ++ [l])
        rw [← List.append_assoc]
        exact sublist_snoc_both l h2
  | fin =>
    have hs : step s c l = stepEnd s c l := by rw [step, hcl]
    rw [hs]
    cases hst : c.state with
    | normal =>
      obtain ⟨hL, hB, hI, hP⟩ := h3 hst
      rw [stepEnd, hst]
      refine ⟨?_, h2, fun hx => ⟨hL, hB, hI, hP⟩,
        fun hx => by simp at hx,
        fun hx => by simp at hx⟩
      show List.Sublist ((c.out ++ [l]) ++ c.pending) (pre ++ [l])
      rw [hP, List.append_nil]
      rw [hP, List.append_nil] at h1
      exact sublist_snoc_both l h1
    | inLocal =>
      obtain ⟨hB, hI⟩ := h4 hst
      rw [stepEnd, hst]
      refine ⟨?_, ?_, fun hx => by simp at hx,
        fun hx => ⟨hB, hI⟩,
        fun hx => by simp at hx⟩
      · show List.Sublist (c.out ++ (c.pending ++ [l])) (pre ++ [l])
        exact sublist_pend l h1
      · show List.Sublist ((c.localSeg ++ [l]) ++ c.baseSeg ++ c.incomingSeg)
          (c.pending ++ [l])
        simp only [hB, hI, List.append_nil]
        simp only [hB, hI, List.append_nil] at h2
        exact sublist_snoc_both l h2
    | inBase =>
      have hI := h5 hst
      rw [stepEnd, hst]
      refine ⟨?_, ?_, fun hx => by simp at hx,
        fun hx => by simp at hx, fun hx => hI⟩
      · show List.Sublist (c.out ++ (c.pending ++ [l])) (pre ++ [l])
        exact sublist_pend l h1
      · show List.Sublist ((c.localSeg ++ (c.baseSeg ++ [l])) ++ c.incomingSeg)
          (c.pending ++ [l])
        simp only [hI, List.append_nil]
        simp only [hI, List.append_nil] at h2
        rw [← List.append_assoc]
        exact sublist_snoc_both l h2
    | inIncoming =>
      rw [stepEnd, hst]
      refine ⟨?_, by simp, fun hx => ⟨rfl, rfl, rfl, rfl⟩,
        fun hx => by simp at hx, fun hx => by simp at hx⟩
      show List.Sublist ((c.out ++ (flushSeg s c l).1) ++ []) (pre ++ [l])
      rw [List.append_nil]
      cases s with
      | keepLocal =>
        simp only [flushSeg]
        exact sublist_out_flush l h1
          (((List.sublist_append_left _ _).trans
            (List.sublist_append_left _ _)).trans h2)
      | keepIncoming =>
        simp only [flushSeg]
        exact sublist_out_flush l h1
          ((List.sublist_append_right _ _).trans h2)
      | keepBase =>
        simp only [flushSeg]
        by_cases hb : c.hasBase
        · rw [if_pos hb]
          exact sublist_out_flush l h1
            (((List.sublist_append_right _ _).trans
              (List.sublist_append_left _ _)).trans h2)
        · rw [if_neg hb]
          exact sublist_pend l h1
      | keepBoth =>
        simp only [flushSeg]
        exact sublist_out_flush l h1
          ((List.Sublist.append (List.sublist_append_left _ _)
            (List.Sublist.refl _)).trans h2)

/-- The sublist invariant holds after the whole scan. -/
lemma scan_subInv (s : Strategy) (ls : List Line) :
    ∀ (c : Cfg) (pre : List Line), SubInv c pre →
      SubInv (scan s c ls) (pre ++ ls) := by
  induction ls with
  | nil => intro c pre h; simpa [scan] using h
  | cons l ls ih =>
    intro c pre h
    have hrec := ih (step s c l) (pre ++ [l]) (step_subInv s c l pre h)
    have hgoal : scan s c (l :: ls) = scan s (step s c l) ls := rfl
    rw [hgoal]
    simpa [List.append_assoc] using hrec

lemma outsideLines_cons (st : RState) (l : Line) (ls : List Line) :
    outsideLines st (l :: ls) =
      if st = .normal ∧ ¬ classify l = .start
      then l :: outsideLines (nextState st (classify l)) ls
      else outsideLines (nextState st (classify l)) ls := rfl

lemma sublist_append_mid (a b x : List Line) :
    List.Sublist (a ++ x) ((a ++ b) ++ x) := by
  rw [List.append_assoc]
  exact List.Sublist.append (List.Sublist.refl a) (List.sublist_append_right b x)

lemma initCfg_subInv : SubInv initCfg [] :=
  ⟨List.Sublist.refl [], List.Sublist.refl [],
    fun _ => ⟨rfl, rfl, rfl, rfl⟩,
    fun hx => by simp [initCfg] at hx, fun hx => by simp [initCfg] at hx⟩

lemma scan_append (s : Strategy) (xs ys : List Line) :
    ∀ c, scan s c (xs ++ ys) = scan s (scan s c xs) ys := by
  induction xs with
  | nil => intro c; rfl
  | cons x xs ih => intro c; exact ih (step s c x)

/-- Every line consumed in the Normal state other than a StartMarker is
already committed to the output buffer, and the buffer survives to the
final output: the outside-of-block lines appear in the result, in order. -/
lemma outside_kept (s : Strategy) (ls : List Line) :
    ∀ c, List.Sublist (c.out ++ outsideLines c.state ls)
      ((finish (scan s c ls)).1) := by
  induction ls with
  | nil =>
    intro c
    show List.Sublist (c.out ++ outsideLines c.state []) ((finish c).1)
    simp only [outsideLines, List.append_nil]
    rw [finish]
    by_cases hst : c.state = .normal
    · rw [if_pos hst]
    · rw [if_neg hst]
      exact List.sublist_append_left _ _
  | cons l ls ih =>
    intro c
    have hgoal : scan s c (l :: ls) = scan s (step s c l) ls := rfl
    rw [hgoal]
    refine List.Sublist.trans ?_ (ih (step s c l))
    cases hcl : classify l with
    | plain =>
      have hs : step s c l = stepPlain c l := by rw [step, hcl]
      rw [hs]
      cases hst : c.state with
      | normal =>
        rw [stepPlain, hst, outsideLines_cons, hcl,
          if_pos (by decide : RState.normal = RState.normal ∧
            ¬ MKind.plain = MKind.start)]
        rw [List.append_cons]
        exact List.Sublist.refl _
      | inLocal =>
        rw [stepPlain, hst, outsideLines_cons, hcl,
          if_neg (by decide : ¬ (RState.inLocal = RState.normal ∧
            ¬ MKind.plain = MKind.start))]
        exact List.Sublist.refl _
      | inBase =>
        rw [stepPlain, hst, outsideLines_cons, hcl,
          if_neg (by decide : ¬ (RState.inBase = RState.normal ∧
            ¬ MKind.plain = MKind.start))]
        exact List.Sublist.refl _
      | inIncoming =>
        rw [stepPlain, hst, outsideLines_cons, hcl,
          if_neg (by decide : ¬ (RState.inIncoming = RState.normal ∧
            ¬ MKind.plain = MKind.start))]
        exact List.Sublist.refl _
    | start =>
      have hs : step s c l = stepStart c l := by rw [step, hcl]
      rw [hs]
      cases hst : c.state with
      | normal =>
        rw [stepStart, hst, outsideLines_cons, hcl,
          if_neg (by decide : ¬ (RState.normal = RState.normal ∧
            ¬ MKind.start = MKind.start))]
        exact List.Sublist.refl _
      | inLocal =>
        rw [stepStart, hst, outsideLines_cons, hcl,
          if_neg (by decide : ¬ (RState.inLocal = RState.normal ∧
            ¬ MKind.start = MKind.start))]
        exact sublist_append_mid _ _ _
      | inBase =>
        rw [stepStart, hst, outsideLines_cons, hcl,
          if_neg (by decide : ¬ (RState.inBase = RState.normal ∧
            ¬ MKind.start = MKind.start))]
        exact sublist_append_mid _ _ _
      | inIncoming =>
        rw [stepStart, hst, outsideLines_cons, hcl,
          if_neg (by decide : ¬ (RState.inIncoming = RState.normal ∧
            ¬ MKind.start = MKind.start))]
        exact sublist_append_mid _ _ _
    | base =>
      have hs : step s c l = stepBase c l := by rw [step, hcl]
      rw [hs]
      cases hst : c.state with
      | normal =>
        rw [stepBase, hst, outsideLines_cons, hcl,
          if_pos (by decide : RState.normal = RState.normal ∧
            ¬ MKind.base = MKind.start)]
        rw [List.append_cons]
        exact List.Sublist.refl _
      | inLocal =>
        rw [stepBase, hst, outsideLines_cons, hcl,
          if_neg (by decide : ¬ (RState.inLocal = RState.normal ∧
            ¬ MKind.base = MKind.start))]
        exact List.Sublist.refl _
      | inBase =>
        rw [stepBase, hst, outsideLines_cons, hcl,
          if_neg (by decide : ¬ (RState.inBase = RState.normal ∧
            ¬ MKind.base = MKind.start))]
        exact List.Sublist.refl _
      | inIncoming =>
        rw [stepBase, hst, outsideLines_cons, hcl,
          if_neg (by decide : ¬ (RState.inIncoming = RState.normal ∧
            ¬ MKind.base = MKind.start))]
        exact List.Sublist.refl _
    | sep =>
      have hs : step s c l = stepSep c l := by rw [step, hcl]
      rw [hs]
      cases hst : c.state with
      | normal =>
        rw [stepSep, hst, outsideLines_cons, hcl,
          if_pos (by decide : RState.normal = RState.normal ∧
            ¬ MKind.sep = MKind.start)]
        rw [List.append_cons]
        exact List.Sublist.refl _
      | inLocal =>
        rw [stepSep, hst, outsideLines_cons, hcl,
          if_neg (by decide : ¬ (RState.inLocal = RState.normal ∧
            ¬ MKind.sep = MKind.start))]
        exact List.Sublist.refl _
      | inBase =>
        rw [stepSep, hst, outsideLines_cons, hcl,
          if_neg (by decide : ¬ (RState.inBase = RState.normal ∧
            ¬ MKind.sep = MKind.start))]
        exact List.Sublist.refl _
      | inIncoming =>
        rw [stepSep, hst, outsideLines_cons, hcl,
          if_neg (by decide : ¬ (RState.inIncoming = RState.normal ∧
            ¬ MKind.sep = MKind.start))]
        exact List.Sublist.refl _
    | fin =>
      have hs : step s c l = stepEnd s c l := by rw [step, hcl]
      rw [hs]
      cases hst : c.state with
      | normal =>
        rw [stepEnd, hst, outsideLines_cons, hcl,
          if_pos (by decide : RState.normal = RState.normal ∧
            ¬ MKind.fin = MKind.start)]
        rw [List.append_cons]
        exact List.Sublist.refl _
      | inLocal =>
        rw [stepEnd, hst, outsideLines_cons, hcl,
          if_neg (by decide : ¬ (RState.inLocal = RState.normal ∧
            ¬ MKind.fin = MKind.start))]
        exact List.Sublist.refl _
      | inBase =>
        rw [stepEnd, hst, outsideLines_cons, hcl,
          if_neg (by decide : ¬ (RState.inBase = RState.normal ∧
            ¬ MKind.fin = MKind.start))]
        exact List.Sublist.refl _
      | inIncoming =>
        rw [stepEnd, hst, outsideLines_cons, hcl,
          if_neg (by decide : ¬ (RState.inIncoming = RState.normal ∧
            ¬ MKind.fin = MKind.start))]
        exact sublist_append_mid _ _ _

/-- The strategy-selected segments are an in-order sublist of the
concatenation of all three segments. -/
lemma selected_sub_concat (s : Strategy) (c : Cfg) :
    List.Sublist (selectedSeg s c)
      (c.localSeg ++ c.baseSeg ++ c.incomingSeg) := by
  cases s with
  | keepLocal =>
    exact (List.sublist_append_left _ _).trans (List.sublist_append_left _ _)
  | keepIncoming => exact List.sublist_append_right _ _
  | keepBase =>
    exact (List.sublist_append_right _ _).trans (List.sublist_append_left _ _)
  | keepBoth =>
    exact List.Sublist.append (List.sublist_append_left _ _)
      (List.Sublist.refl _)

lemma selectedSeg_mono {s : Strategy} {c c2 : Cfg}
    (hl : List.Sublist c.localSeg c2.localSeg)
    (hb : List.Sublist c.baseSeg c2.baseSeg)
    (hi : List.Sublist c.incomingSeg c2.incomingSeg) :
    List.Sublist (selectedSeg s c) (selectedSeg s c2) := by
  cases s with
  | keepLocal => exact hl
  | keepIncoming => exact hi
  | keepBase => exact hb
  | keepBoth => exact List.Sublist.append hl hi

/-- One transition never loses committed output nor selected-segment
content. -/
lemma step_selected (s : Strategy) (c : Cfg) (l : Line) (pre : List Line)
    (h : SubInv c pre) :
    List.Sublist (c.out ++ selectedSeg s c)
      ((step s c l).out ++ selectedSeg s (step s c l)) := by
  obtain ⟨h1, h2, h3, h4, h5⟩ := h
  cases hcl : classify l with
  | plain =>
    have hs : step s c l = stepPlain c l := by rw [step, hcl]
    rw [hs]
    cases hst : c.state with
    | normal =>
      rw [stepPlain, hst]
      exact List.Sublist.append (List.sublist_append_left _ _)
        (selectedSeg_mono (List.Sublist.refl _) (List.Sublist.refl _)
          (List.Sublist.refl _))
    | inLocal =>
      rw [stepPlain, hst]
      exact List.Sublist.append (List.Sublist.refl _)
        (selectedSeg_mono (List.sublist_append_left _ _)
          (List.Sublist.refl _) (List.Sublist.refl _))
    | inBase =>
      rw [stepPlain, hst]
      exact List.Sublist.append (List.Sublist.refl _)
        (selectedSeg_mono (List.Sublist.refl _)
          (List.sublist_append_left _ _) (List.Sublist.refl _))
    | inIncoming =>
      rw [stepPlain, hst]
      exact List.Sublist.append (List.Sublist.refl _)
        (selectedSeg_mono (List.Sublist.refl _) (List.Sublist.refl _)
          (List.sublist_append_left _ _))
  | start =>
    have hs : step s c l = stepStart c l := by rw [step, hcl]
    rw [hs]
    cases hst : c.state with
    | normal =>
      obtain ⟨hL, hB, hI, hP⟩ := h3 hst
      have hsel : selectedSeg s c = [] := by
        cases s <;> simp [selectedSeg, hL, hB, hI]
      rw [stepStart, hst, hsel, List.append_nil]
      exact List.sublist_append_left _ _
    | inLocal =>
      rw [stepStart, hst]
      exact (List.Sublist.append (List.Sublist.refl c.out)
        ((selected_sub_concat s c).trans h2)).trans
        (List.sublist_append_left _ _)
    | inBase =>
      rw [stepStart, hst]
      exact (List.Sublist.append (List.Sublist.refl c.out)
        ((selected_sub_concat s c).trans h2)).trans
        (List.sublist_append_left _ _)
    | inIncoming =>
      rw [stepStart, hst]
      exact (List.Sublist.append (List.Sublist.refl c.out)
        ((selected_sub_concat s c).trans h2)).trans
        (List.sublist_append_left _ _)
  | base =>
    have hs : step s c l = stepBase c l := by rw [step, hcl]
    rw [hs]
    cases hst : c.state with
    | normal =>
      rw [stepBase, hst]
      exact List.Sublist.append (List.sublist_append_left _ _)
        (selectedSeg_mono (List.Sublist.refl _) (List.Sublist.refl _)
          (List.Sublist.refl _))
    | inLocal =>
      rw [stepBase, hst]
      exact List.Sublist.append (List.Sublist.refl _)
        (selectedSeg_mono (List.Sublist.refl _) (List.Sublist.refl _)
          (List.Sublist.refl _))
    | inBase =>
      rw [stepBase, hst]
      exact List.Sublist.append (List.Sublist.refl _)
        (selectedSeg_mono (List.Sublist.refl _)
          (List.sublist_append_left _ _) (List.Sublist.refl _))
    | inIncoming =>
      rw [stepBase, hst]
      exact List.Sublist.append (List.Sublist.refl _)
        (selectedSeg_mono (List.Sublist.refl _) (List.Sublist.refl _)
          (List.sublist_append_left _ _))
  | sep =>
    have hs : step s c l = stepSep c l := by rw [step, hcl]
    rw [hs]
    cases hst : c.state with
    | normal =>
      rw [stepSep, hst]
      exact List.Sublist.append (List.sublist_append_left _ _)
        (selectedSeg_mono (List.Sublist.refl _) (List.Sublist.refl _)
          (List.Sublist.refl _))
    | inLocal =>
      rw [stepSep, hst]
      exact List.Sublist.append (List.Sublist.refl _)
        (selectedSeg_mono (List.Sublist.refl _) (List.Sublist.refl _)
          (List.Sublist.refl _))
    | inBase =>
      rw [stepSep, hst]
      exact List.Sublist.append (List.Sublist.refl _)
        (selectedSeg_mono (List.Sublist.refl _) (List.Sublist.refl _)
          (List.Sublist.refl _))
    | inIncoming =>
      rw [stepSep, hst]
      exact List.Sublist.append (List.Sublist.refl _)
        (selectedSeg_mono (List.Sublist.refl _) (List.Sublist.refl _)
          (List.sublist_append_left _ _))
  | fin =>
    have hs : step s c l = stepEnd s c l := by rw [step, hcl]
    rw [hs]
    cases hst : c.state with
    | normal =>
      rw [stepEnd, hst]
      exact List.Sublist.append (List.sublist_append_left _ _)
        (selectedSeg_mono (List.Sublist.refl _) (List.Sublist.refl _)
          (List.Sublist.refl _))
    | inLocal =>
      rw [stepEnd, hst]
      exact List.Sublist.append (List.Sublist.refl _)
        (selectedSeg_mono (List.sublist_append_left _ _)
          (List.Sublist.refl _) (List.Sublist.refl _))
    | inBase =>
      rw [stepEnd, hst]
      exact List.Sublist.append (List.Sublist.refl _)
        (selectedSeg_mono (List.Sublist.refl _)
          (List.sublist_append_left _ _) (List.Sublist.refl _))
    | inIncoming =>
      rw [stepEnd, hst]
      have hflush : List.Sublist (selectedSeg s c) ((flushSeg s c l).1) := by
        cases s with
        | keepLocal => exact List.Sublist.refl _
        | keepIncoming => exact List.Sublist.refl _
        | keepBoth => exact List.Sublist.refl _
        | keepBase =>
          show List.Sublist c.baseSeg
            ((if c.hasBase then (c.baseSeg, ([] : List Diag))
              else (c.pending ++ [l],
                [.malformedMarker c.idx "KeepBase without base segment"])).1)
          by_cases hb : c.hasBase
          · rw [if_pos hb]
          · rw [if_neg hb]
            exact ((((List.sublist_append_right _ _).trans
              (List.sublist_append_left _ _)).trans h2).trans
              (List.sublist_append_left _ _))
      exact (List.Sublist.append (List.Sublist.refl c.out) hflush).trans
        (List.sublist_append_left _ _)

/-- Committed output plus the selected segment collected so far survives
to the end of the scan. -/
lemma selected_kept (s : Strategy) (ls : List Line) :
    ∀ (c : Cfg) (pre : List Line), SubInv c pre →
      List.Sublist (c.out ++ selectedSeg s c) ((finish (scan s c ls)).1) := by
  induction ls with
  | nil =>
    intro c pre h
    show List.Sublist (c.out ++ selectedSeg s c) ((finish c).1)
    rw [finish]
    by_cases hst : c.state = .normal
    · rw [if_pos hst]
      obtain ⟨hL, hB, hI, hP⟩ := h.2.2.1 hst
      have hsel : selectedSeg s c = [] := by
        cases s <;> simp [selectedSeg, hL, hB, hI]
      rw [hsel, List.append_nil]
    · rw [if_neg hst]
      exact List.Sublist.append (List.Sublist.refl c.out)
        ((selected_sub_concat s c).trans h.2.1)
  | cons l ls ih =>
    intro c pre h
    have hgoal : scan s c (l :: ls) = scan s (step s c l) ls := rfl
    rw [hgoal]
    exact (step_selected s c l pre h).trans
      (ih (step s c l) (pre ++ [l]) (step_subInv s c l pre h))

/-! ## Claims -/

/-- C1: resolving `["a", "<<<<<<< HEAD", "local1", "=======", "incoming1",
">>>>>>> branch", "b"]` with `KeepLocal` yields exactly
`["a", "local1", "b"]` with diagnostics `[ResolvedBlock(1,5)]`. -/
theorem single_block_keepLocal :
    resolve
      [strL "a", strL "<<<<<<< HEAD", strL "local1", strL "=======",
       strL "incoming1", strL ">>>>>>> branch", strL "b"] .keepLocal =
      ([strL "a", strL "local1", strL "b"], [.resolvedBlock 1 5]) := by decide

/-- C2: on input with no marker lines, `resolve` returns the input unchanged
and an empty diagnostics list, for every strategy. -/
theorem pass_through (lines : List Line) (s : Strategy)
    (h : ∀ l ∈ lines, isMarkerLine l = false) :
    resolve lines s = (lines, []) :=
  resolve_pass_through lines s h

/-- Witness for C2 at the marker-free input `["x", "y"]`. -/
theorem pass_through_witness :
    (∀ l ∈ [strL "x", strL "y"], isMarkerLine l = false) ∧
      resolve [strL "x", strL "y"] .keepIncoming = ([strL "x", strL "y"], []) :=
  ⟨by decide, pass_through [strL "x", strL "y"] .keepIncoming (by decide)⟩

/-- C7: in the source script, once a line whose stripped form begins with
`=======` is seen, if no later line's stripped form begins with
`<<<<<<< HEAD` or `>>>>>>>` then no later line contributes to the output:
the result equals the result on the input truncated before the separator. -/
theorem sep_drops_rest (pre : List Line) (l : Line) (post : List Line)
    (hsep : stripStarts l eqSigil = true)
    (hpost : ∀ x ∈ post, stripStarts x headSigil = false ∧
      stripStarts x gtSigil = false) :
    resolve_conflict (pre ++ l :: post) = resolve_conflict pre := by
  unfold resolve_conflict
  rw [sourceGo_append]
  have h1 : sourceGo (sourceModeAfter .normal pre) (l :: post) = [] := by
    rw [sourceGo_cons, sourceStep_sep _ _ hsep]
    exact sourceGo_skip_nil post hpost
  rw [h1, List.append_nil]

/-- Witness for C7 at `["a", "=======", "b"]`: the line `b` is dropped. -/
theorem sep_drops_rest_witness :
    resolve_conflict [strL "a", strL "=======", strL "b"] =
      resolve_conflict [strL "a"] :=
  sep_drops_rest [strL "a"] (strL "=======") [strL "b"] (by decide) (by decide)

/-- C10: every line of the source script's output is a non-marker input
line; marker lines (the start literal, separator, end marker) are always
consumed, in every mode, and never appear in the output. -/
theorem markers_never_in_output (lines : List Line) (l : Line)
    (h : l ∈ resolve_conflict lines) : isSourceMarker l = false :=
  sourceGo_no_marker lines .normal l h

/-- Witness for C10 at the input `["a", "======="]`. -/
theorem markers_never_in_output_witness :
    strL "a" ∈ resolve_conflict [strL "a", strL "======="] ∧
      isSourceMarker (strL "a") = false :=
  ⟨by decide,
    markers_never_in_output [strL "a", strL "======="] (strL "a") (by decide)⟩

/-- C5: when the scan ends inside a block (an open StartMarker with no
matching EndMarker), the diagnostics contain `UnterminatedBlock` for that
block's start index, and the output ends with every input line from the
start marker to end-of-input, verbatim, the marker line included. -/
theorem unterminated_block (lines : List Line) (s : Strategy)
    (h : ¬ (scan s initCfg lines).state = .normal) :
    Diag.unterminatedBlock (scan s initCfg lines).startIdx ∈
        (resolve lines s).2 ∧
      lines.drop (scan s initCfg lines).startIdx <:+ (resolve lines s).1 := by
  have hinv := scan_pending s lines initCfg [] rfl (fun hc => absurd rfl hc)
  rcases hinv.2 h with ⟨hle, hpd⟩
  simp only [List.nil_append] at hpd
  unfold resolve finish
  rw [if_neg h]
  refine ⟨by simp, ?_⟩
  rw [← hpd]
  exact List.suffix_append _ _

/-- Witness for C5 at the input `["<<<<<<< HEAD", "x"]`. -/
theorem unterminated_block_witness :
    Diag.unterminatedBlock
        (scan .keepLocal initCfg [strL "<<<<<<< HEAD", strL "x"]).startIdx ∈
      (resolve [strL "<<<<<<< HEAD", strL "x"] .keepLocal).2 ∧
      [strL "<<<<<<< HEAD", strL "x"].drop
          (scan .keepLocal initCfg [strL "<<<<<<< HEAD", strL "x"]).startIdx <:+
      (resolve [strL "<<<<<<< HEAD", strL "x"] .keepLocal).1 :=
  unterminated_block [strL "<<<<<<< HEAD", strL "x"] .keepLocal (by decide)

/-- C6: for every input and every strategy, the output of `resolve` is a
sublist of the input (no reordering, no invented content, deletions only);
moreover the lines outside any conflict block appear in the output unchanged
and in their original relative order, and at every point of the scan the
committed output together with the strategy-selected segment collected so
far survives into the final output — so the only deletions are marker lines
and non-selected segment lines. -/
theorem output_sublist (lines : List Line) (s : Strategy) :
    List.Sublist (resolve lines s).1 lines ∧
      List.Sublist (outsideLines .normal lines) ((resolve lines s).1) ∧
      (∀ pre rest, lines = pre ++ rest →
        List.Sublist ((scan s initCfg pre).out ++
          selectedSeg s (scan s initCfg pre)) ((resolve lines s).1)) := by
  refine ⟨?_, ?_, ?_⟩
  · have h := scan_subInv s lines initCfg [] initCfg_subInv
    simp only [List.nil_append] at h
    obtain ⟨h1, h2, h3, h4, h5⟩ := h
    unfold resolve finish
    by_cases hst : (scan s initCfg lines).state = .normal
    · rw [if_pos hst]
      exact (List.sublist_append_left _ _).trans h1
    · rw [if_neg hst]
      exact h1
  · exact outside_kept s lines initCfg
  · intro pre rest hsplit
    subst hsplit
    have hsub := scan_subInv s pre initCfg [] initCfg_subInv
    have h := selected_kept s rest (scan s initCfg pre) ([] ++ pre) hsub
    rw [resolve, scan_append]
    exact h

/-- Witness for C6 at the single-block example, split just after the local
segment: the committed `"a"` and the collected selected segment `"local1"`
both survive into the final output. -/
theorem output_sublist_witness :
    List.Sublist
      ((scan Strategy.keepLocal initCfg
          [strL "a", strL "<<<<<<< HEAD", strL "local1"]).out ++
        selectedSeg Strategy.keepLocal
          (scan Strategy.keepLocal initCfg
            [strL "a", strL "<<<<<<< HEAD", strL "local1"]))
      ((resolve
          [strL "a", strL "<<<<<<< HEAD", strL "local1", strL "=======",
           strL "incoming1", strL ">>>>>>> branch", strL "b"]
          Strategy.keepLocal).1) :=
  (output_sublist
      [strL "a", strL "<<<<<<< HEAD", strL "local1", strL "=======",
       strL "incoming1", strL ">>>>>>> branch", strL "b"]
      Strategy.keepLocal).2.2
    [strL "a", strL "<<<<<<< HEAD", strL "local1"]
    [strL "=======", strL "incoming1", strL ">>>>>>> branch", strL "b"] rfl

/-- C8 counterexample: the output of `resolve` can contain a marker line
(an out-of-context separator is passed through as Plain), refuting the
claim that the output never contains marker lines. -/
theorem idempotence_counterexample :
    (resolve [strL "======="] .keepLocal).1 = [strL "======="] ∧
      isMarkerLine (strL "=======") = true := by decide

/-- C8 (amended): when the output of `resolve` contains no marker lines,
resolving that output again with the same strategy is the identity: the
output is returned unchanged with an empty diagnostics list. -/
theorem resolve_idempotent_of_no_marker (lines : List Line) (s : Strategy)
    (h : ∀ l ∈ (resolve lines s).1, isMarkerLine l = false) :
    resolve ((resolve lines s).1) s = ((resolve lines s).1, []) :=
  resolve_pass_through _ s h

/-- C3: any line whose stripped form begins with the `<<<<<<<` sigil is
classified `StartMarker`, whatever its trailing label; in the Normal state
it is consumed (not emitted) and opens a local segment collection. -/
theorem start_marker_any_label (l : Line) (c : Cfg) (s : Strategy)
    (hst : c.state = .normal) (h : stripStarts l ltSigil = true) :
    classify l = .start ∧ (step s c l).state = .inLocal ∧
      (step s c l).out = c.out ∧ (step s c l).pending = [l] ∧
      (step s c l).startIdx = c.idx := by
  have hclass : classify l = .start := by simp [classify, h]
  have hs1 : step s c l = stepStart c l := by rw [step, hclass]
  have hs2 : stepStart c l =
      { c with state := .inLocal, startIdx := c.idx, localSeg := [],
               baseSeg := [], incomingSeg := [], hasBase := false,
               pending := [l], idx := c.idx + 1 } := by
    rw [stepStart, hst]
  rw [hs1, hs2]
  exact ⟨hclass, rfl, rfl, rfl, rfl⟩

/-- Witness for C3 at the non-HEAD label line `<<<<<<< feature-x`. -/
theorem start_marker_any_label_witness :
    classify (strL "<<<<<<< feature-x") = .start ∧
      (step .keepLocal initCfg (strL "<<<<<<< feature-x")).state = .inLocal ∧
      (step .keepLocal initCfg (strL "<<<<<<< feature-x")).out = initCfg.out ∧
      (step .keepLocal initCfg (strL "<<<<<<< feature-x")).pending =
        [strL "<<<<<<< feature-x"] ∧
      (step .keepLocal initCfg (strL "<<<<<<< feature-x")).startIdx =
        initCfg.idx :=
  start_marker_any_label (strL "<<<<<<< feature-x") initCfg .keepLocal rfl
    (by decide)

/-- C4: a separator line reached in the Normal state is never treated as a
marker: it is passed through to the output as Plain, the state stays
Normal, and a `MalformedMarker` diagnostic is emitted. -/
theorem separator_outside_block (l : Line) (c : Cfg) (s : Strategy)
    (hst : c.state = .normal) (h : stripStarts l eqSigil = true) :
    classify l = .sep ∧ (step s c l).state = .normal ∧
      (step s c l).out = c.out ++ [l] ∧
      (step s c l).diags = c.diags ++
        [.malformedMarker c.idx "separator outside conflict block"] := by
  have hx := stripStarts_eq_excl l h
  have hclass : classify l = .sep := by
    simp [classify, hx.2.2.1, hx.2.2.2, h]
  have hs1 : step s c l = stepSep c l := by rw [step, hclass]
  have hs2 : stepSep c l =
      { c with out := c.out ++ [l],
               diags := c.diags ++
                 [.malformedMarker c.idx "separator outside conflict block"],
               idx := c.idx + 1 } := by
    rw [stepSep, hst]
  rw [hs1, hs2]
  exact ⟨hclass, hst, rfl, rfl⟩

/-- Witness for C4 at the line `=======` in the initial state. -/
theorem separator_outside_block_witness :
    classify (strL "=======") = .sep ∧
      (step .keepBoth initCfg (strL "=======")).state = .normal ∧
      (step .keepBoth initCfg (strL "=======")).out = initCfg.out ++
        [strL "======="] ∧
      (step .keepBoth initCfg (strL "=======")).diags = initCfg.diags ++
        [.malformedMarker initCfg.idx "separator outside conflict block"] :=
  separator_outside_block (strL "=======") initCfg .keepBoth rfl (by decide)

/-- Witness for C8 at the single-block example input. -/
theorem resolve_idempotent_witness :
    resolve ((resolve [strL "a", strL "<<<<<<< HEAD", strL "local1",
        strL "=======", strL "incoming1", strL ">>>>>>> branch", strL "b"]
        .keepLocal).1) .keepLocal =
      ((resolve [strL "a", strL "<<<<<<< HEAD", strL "local1",
        strL "=======", strL "incoming1", strL ">>>>>>> branch", strL "b"]
        .keepLocal).1, []) :=
  resolve_idempotent_of_no_marker
    [strL "a", strL "<<<<<<< HEAD", strL "local1", strL "=======",
     strL "incoming1", strL ">>>>>>> branch", strL "b"] .keepLocal (by decide)

/-- The relational driver agrees with the functional resolver. -/
lemma resolveR_scan (s : Strategy) (ls : List Line) :
    ∀ (c : Cfg), ResolveR s c ls (finish (scan s c ls)) := by
  induction ls with
  | nil =>
    intro c
    by_cases hst : c.state = .normal
    · have hf : finish (scan s c []) = (c.out, c.diags) := by
        simp [scan, finish, hst]
      rw [hf]
      exact ResolveR.done_normal c hst
    · have hf : finish (scan s c []) =
          (c.out ++ c.pending, c.diags ++ [.unterminatedBlock c.startIdx]) := by
        simp [scan, finish, hst]
      rw [hf]
      exact ResolveR.done_open c hst
  | cons l ls ih =>
    intro c
    have hgoal : scan s c (l :: ls) = scan s (step s c l) ls := rfl
    rw [hgoal]
    cases hcl : classify l with
    | plain =>
      have hs : step s c l = stepPlain c l := by rw [step, hcl]
      rw [hs]
      exact ResolveR.plain_line c l ls _ hcl (ih (stepPlain c l))
    | start =>
      have hs : step s c l = stepStart c l := by rw [step, hcl]
      rw [hs]
      exact ResolveR.start_line c l ls _ hcl (ih (stepStart c l))
    | base =>
      have hs : step s c l = stepBase c l := by rw [step, hcl]
      rw [hs]
      exact ResolveR.base_line c l ls _ hcl (ih (stepBase c l))
    | sep =>
      have hs : step s c l = stepSep c l := by rw [step, hcl]
      rw [hs]
      exact ResolveR.sep_line c l ls _ hcl (ih (stepSep c l))
    | fin =>
      have hs : step s c l = stepEnd s c l := by rw [step, hcl]
      rw [hs]
      exact ResolveR.end_line c l ls _ hcl (ih (stepEnd s c l))

/-- `resolve` is a result of the relational driver. -/
lemma resolveR_resolve (lines : List Line) (s : Strategy) :
    ResolveR s initCfg lines (resolve lines s) :=
  resolveR_scan s lines initCfg

/-- The relational driver is deterministic: the classification outcomes are
mutually exclusive, so at most one transition applies to every line. -/
lemma resolveR_det (s : Strategy) {c : Cfg} {ls : List Line}
    {o₁ : List Line × List Diag} (h1 : ResolveR s c ls o₁) :
    ∀ o₂, ResolveR s c ls o₂ → o₁ = o₂ := by
  induction h1 with
  | done_normal c hst =>
    intro o₂ h2
    cases h2 with
    | done_normal _ _ => rfl
    | done_open _ hst2 => exact absurd hst hst2
  | done_open c hst =>
    intro o₂ h2
    cases h2 with
    | done_normal _ hst2 => exact absurd hst2 hst
    | done_open _ _ => rfl
  | plain_line c l ls o hcl h ih =>
    intro o₂ h2
    cases h2 with
    | plain_line _ _ _ _ hcl2 h2x => exact ih o₂ h2x
    | start_line _ _ _ _ hcl2 h2x => simp [hcl] at hcl2
    | base_line _ _ _ _ hcl2 h2x => simp [hcl] at hcl2
    | sep_line _ _ _ _ hcl2 h2x => simp [hcl] at hcl2
    | end_line _ _ _ _ hcl2 h2x => simp [hcl] at hcl2
  | start_line c l ls o hcl h ih =>
    intro o₂ h2
    cases h2 with
    | plain_line _ _ _ _ hcl2 h2x => simp [hcl] at hcl2
    | start_line _ _ _ _ hcl2 h2x => exact ih o₂ h2x
    | base_line _ _ _ _ hcl2 h2x => simp [hcl] at hcl2
    | sep_line _ _ _ _ hcl2 h2x => simp [hcl] at hcl2
    | end_line _ _ _ _ hcl2 h2x => simp [hcl] at hcl2
  | base_line c l ls o hcl h ih =>
    intro o₂ h2
    cases h2 with
    | plain_line _ _ _ _ hcl2 h2x => simp [hcl] at hcl2
    | start_line _ _ _ _ hcl2 h2x => simp [hcl] at hcl2
    | base_line _ _ _ _ hcl2 h2x => exact ih o₂ h2x
    | sep_line _ _ _ _ hcl2 h2x => simp [hcl] at hcl2
    | end_line _ _ _ _ hcl2 h2x => simp [hcl] at hcl2
  | sep_line c l ls o hcl h ih =>
    intro o₂ h2
    cases h2 with
    | plain_line _ _ _ _ hcl2 h2x => simp [hcl] at hcl2
    | start_line _ _ _ _ hcl2 h2x => simp [hcl] at hcl2
    | base_line _ _ _ _ hcl2 h2x => simp [hcl] at hcl2
    | sep_line _ _ _ _ hcl2 h2x => exact ih o₂ h2x
    | end_line _ _ _ _ hcl2 h2x => simp [hcl] at hcl2
  | end_line c l ls o hcl h ih =>
    intro o₂ h2
    cases h2 with
    | plain_line _ _ _ _ hcl2 h2x => simp [hcl] at hcl2
    | start_line _ _ _ _ hcl2 h2x => simp [hcl] at hcl2
    | base_line _ _ _ _ hcl2 h2x => simp [hcl] at hcl2
    | sep_line _ _ _ _ hcl2 h2x => simp [hcl] at hcl2
    | end_line _ _ _ _ hcl2 h2x => exact ih o₂ h2x

/-- C9: the resolver is deterministic: any two runs of the driver relation
on the same input lines and the same strategy produce the same resolved
output and the same diagnostics, and that common result is `resolve`. -/
theorem resolve_deterministic (lines : List Line) (s : Strategy)
    (o₁ o₂ : List Line × List Diag)
    (h1 : ResolveR s initCfg lines o₁) (h2 : ResolveR s initCfg lines o₂) :
    o₁ = o₂ ∧ o₁ = resolve lines s :=
  ⟨resolveR_det s h1 o₂ h2,
   resolveR_det s h1 (resolve lines s) (resolveR_resolve lines s)⟩

/-- Witness for C9: two runs on `["a"]`, one of them pinned to the concrete
result. -/
theorem resolve_deterministic_witness :
    resolve [strL "a"] Strategy.keepLocal = ([strL "a"], ([] : List Diag)) ∧
      resolve [strL "a"] Strategy.keepLocal =
        resolve [strL "a"] Strategy.keepLocal :=
  resolve_deterministic [strL "a"] Strategy.keepLocal
    (resolve [strL "a"] Strategy.keepLocal) ([strL "a"], [])
    (resolveR_resolve [strL "a"] Strategy.keepLocal)
    (resolveR_resolve [strL "a"] Strategy.keepLocal)

end MapFlow
